import Mathlib

/-!
Verification of the retrieval-augmented answering core of the ChatbotTest
repository (src/server/rag.js and src/server/server.js) against its
natural-language specification.

Modelling conventions:
* JavaScript strings are modelled as `List Char`; the small helpers below
  (`leadsWith`, `hasSubstr`, `jsSplitOn`, `jsReplaceFirst`, `jsTrim`,
  `jsToLower`) reproduce the JS string primitives used by the source
  (`String.prototype.includes`, `split`, non-regex `replace`, `trim`,
  `toLowerCase`).
* JavaScript numbers are modelled as real numbers (`ℝ`); `Math.sqrt` is
  `Real.sqrt`.  Where the source can produce `NaN` (an out-of-range array
  read used in arithmetic), the value is modelled as `Option ℝ` with `none`
  standing for `NaN`; JS comparisons involving `NaN` are false, which the
  embedding reproduces explicitly.
* Network calls (`getEmbedding`, the generation service) are modelled by
  passing their results as arguments: the functions under verification are
  the pure cores that consume those results.
-/

/-- The character list underlying a Lean string literal; used to write the
JS string constants of the source. -/
def strL (s : String) : List Char := s.data

/-- Character class of the JS regex `\s` (also the set trimmed by
`String.prototype.trim`): space, tab, LF, VT, FF, CR, NBSP, and the
Unicode space separators, line/paragraph separators and BOM. -/
def jsWhitespace (c : Char) : Bool :=
  c = ' ' || c = '\t' || c = '\n' || c.val = 11 || c.val = 12 || c = '\r' ||
  c.val = 0xa0 || c.val = 0x1680 || (0x2000 ≤ c.val && c.val ≤ 0x200a) ||
  c.val = 0x2028 || c.val = 0x2029 || c.val = 0x202f || c.val = 0x205f ||
  c.val = 0x3000 || c.val = 0xfeff

/-- Character class of the JS regex `\w`: ASCII letters, digits and
underscore. -/
def jsWordChar (c : Char) : Bool :=
  ('a' ≤ c && c ≤ 'z') || ('A' ≤ c && c ≤ 'Z') || ('0' ≤ c && c ≤ '9') || c = '_'

/-- Test whether `pat` is an initial run of `s`. -/
def leadsWith : List Char → List Char → Bool
  | [], _ => true
  | _ :: _, [] => false
  | p :: ps, c :: cs => p = c && leadsWith ps cs

/-- Test whether `pat` occurs contiguously in `s`; models
`String.prototype.includes`. -/
def hasSubstr (pat : List Char) : List Char → Bool
  | [] => pat.isEmpty
  | c :: rest => leadsWith pat (c :: rest) || hasSubstr pat rest

/-- Models `String.prototype.trim`: drop leading and trailing JS
whitespace. -/
def jsTrim (s : List Char) : List Char :=
  (((s.dropWhile jsWhitespace).reverse.dropWhile jsWhitespace)).reverse

/-- Fuel-driven scanner behind `jsSplitOn`.  `acc` holds the current
segment reversed; a match of the (non-empty) separator ends the segment
and continues after it. -/
def jsSplitGo (sep : List Char) : ℕ → List Char → List Char → List (List Char)
  | _, acc, [] => [acc.reverse]
  | 0, acc, s => [acc.reverse ++ s]
  | fuel + 1, acc, c :: rest =>
    if !sep.isEmpty && leadsWith sep (c :: rest) then
      acc.reverse :: jsSplitGo sep fuel [] ((c :: rest).drop sep.length)
    else
      jsSplitGo sep fuel (c :: acc) rest

/-- Models `String.prototype.split` for a non-empty literal separator
(every use in the source passes a non-empty one): non-overlapping
left-to-right matches, keeping empty leading/trailing segments. -/
def jsSplitOn (sep s : List Char) : List (List Char) :=
  jsSplitGo sep (s.length + 1) [] s

/-- Models the non-regex `String.prototype.replace`: only the first
occurrence of `pat` is replaced. -/
def jsReplaceFirst (pat repl : List Char) : List Char → List Char
  | [] => []
  | c :: rest =>
    if leadsWith pat (c :: rest) then repl ++ (c :: rest).drop pat.length
    else c :: jsReplaceFirst pat repl rest

/-- Models `String.prototype.toLowerCase` (the source only lower-cases
ASCII text). -/
def jsToLower (s : List Char) : List Char := s.map Char.toLower

/-- Metadata attached to an ingested chunk (rag.js `Document` metadata):
the FAQ branch sets `source`, `type`, `question`, `answer`; the content
branch sets only `source` and `type`. -/
structure DocMetadata where
  source : Option (List Char)
  type : Option (List Char)
  question : Option (List Char)
  answer : Option (List Char)
deriving DecidableEq, Repr

/-- rag.js `class Document`: page content plus metadata. -/
structure Document where
  pageContent : List Char
  metadata : DocMetadata
deriving DecidableEq, Repr

/-- Sum of squares `xs.reduce((sum, val) => sum + val ** 2, 0)` shared by
both cosine-similarity implementations. -/
noncomputable def sumSq (l : List ℝ) : ℝ := l.foldl (fun s v => s + v ^ 2) 0

/-- Recursive presentation of the zero-padded dot product: walks the left
vector, pairing with the right one and treating missing entries as 0.
Used as the proof-friendly form of the `reduce`-with-index dot products
below. -/
noncomputable def dotAux : List ℝ → List ℝ → ℝ
  | x :: a, y :: b => x * y + dotAux a b
  | _, _ => 0

/-- Right-pad a vector with zeros to length `m`; used to state the
zero-padding reading of the length-mismatch behaviour. -/
noncomputable def zeroPad (m : ℕ) (l : List ℝ) : List ℝ :=
  l ++ List.replicate (m - l.length) 0

namespace SimpleVectorStore

/-- rag.js 30-34: the configured banking keywords. -/
def bankingKeywords : List (List Char) :=
  [strL "account", strL "transfer", strL "balance", strL "card",
   strL "payment", strL "login", strL "security", strL "transaction",
   strL "banking", strL "online", strL "mobile", strL "password",
   strL "global trust", strL "bank", strL "help", strL "support"]

/-- rag.js 66-71 (`SimpleVectorStore.cosineSimilarity`):
`a.reduce((sum, val, i) => sum + val * (b[i] || 0), 0)` for the dot
product (out-of-range reads of `b` yield 0), root of the sums of squares
for the norms, and the truthiness guard `normA && normB ? dot / (normA *
normB) : 0`. -/
noncomputable def cosineSimilarity (a b : List ℝ) : ℝ :=
  let dot := a.enum.foldl (fun sum p => sum + p.2 * (b.getD p.1 0)) 0
  let normA := Real.sqrt (sumSq a)
  let normB := Real.sqrt (sumSq b)
  if normA ≠ 0 ∧ normB ≠ 0 then dot / (normA * normB) else 0

/-- rag.js 61-64 (`getBankingRelevance`): +0.1 for every banking keyword
contained in the lower-cased text. -/
noncomputable def getBankingRelevance (text : List Char) : ℝ :=
  bankingKeywords.foldl
    (fun score keyword =>
      score + (if hasSubstr keyword (jsToLower text) then (0.1 : ℝ) else 0)) 0

/-- One element of the `scores` array built by `similaritySearch`
(rag.js 43-47): the raw cosine similarity, the document and its keyword
relevance.  `idx` records the array position (the `index` parameter of the
`map` callback); the JS object drops it, but it is kept here to state the
stable-sort tie-break. -/
structure ScoreEntry where
  idx : ℕ
  score : ℝ
  doc : Document
  relevance : ℝ

/-- rag.js 43-47: score every stored document against the query vector.
`vectors.getD i []` models `this.vectors[index]`; the two arrays always
have equal length in reachable states (`addVectors` appends to both). -/
noncomputable def scoreList (vectors : List (List ℝ)) (documents : List Document)
    (queryVector : List ℝ) : List ScoreEntry :=
  documents.enum.map (fun p =>
    { idx := p.1,
      score := cosineSimilarity queryVector (vectors.getD p.1 []),
      doc := p.2,
      relevance := getBankingRelevance p.2.pageContent })

/-- The sort key of rag.js 56: raw similarity plus keyword bonus. -/
noncomputable def rankingScore (e : ScoreEntry) : ℝ := e.score + e.relevance

/-- rag.js 54-56: keep entries whose raw score reaches `minScore`, then
sort by the comparator `(b.score + b.relevance) - (a.score + a.relevance)`
(descending ranking score).  `Array.prototype.sort` is stable, which the
insertion sort with a non-strict relation reproduces. -/
noncomputable def sortedScores (vectors : List (List ℝ)) (documents : List Document)
    (queryVector : List ℝ) (minScore : ℝ) : List ScoreEntry :=
  @List.insertionSort ScoreEntry (fun x y => rankingScore y ≤ rankingScore x)
    (fun _ _ => Real.decidableLE _ _)
    ((scoreList vectors documents queryVector).filter
      (fun e => decide (minScore ≤ e.score)))

/-- rag.js 42-59 (`similaritySearch`): filter by `minScore`, stable-sort
by ranking score, take the first `k`, and project the documents.  The
`console.log` of the source is a side effect with no influence on the
result. -/
noncomputable def similaritySearch (vectors : List (List ℝ)) (documents : List Document)
    (queryVector : List ℝ) (k : ℕ) (minScore : ℝ) : List Document :=
  ((sortedScores vectors documents queryVector minScore).take k).map (fun e => e.doc)

/-- The order the claim asserts on the search results: strictly greater
ranking score, or equal ranking scores with the earlier insertion index
first (the stable tie-break). -/
noncomputable def rankedBefore (x y : ScoreEntry) : Prop :=
  rankingScore y < rankingScore x ∨
    (rankingScore x = rankingScore y ∧ x.idx < y.idx)

end SimpleVectorStore

namespace IntentRecognizer

/-- rag.js 220-225 (`IntentRecognizer.cosineSimilarity`): identical to the
vector store's version except that the dot product reads `b[i]` without
the `|| 0` guard.  When `a` is longer than `b` the read is `undefined`,
`val * undefined` is `NaN` and the whole sum is `NaN`; `none` models that
`NaN`.  The norms are always real, and the truthiness guard tests only
them, so a `NaN` dot product with a zero norm still returns 0. -/
noncomputable def cosineSimilarity (a b : List ℝ) : Option ℝ :=
  let dot := a.enum.foldl
    (fun sum p =>
      match sum, b.get? p.1 with
      | some s, some bv => some (s + p.2 * bv)
      | _, _ => none)
    (some 0)
  let normA := Real.sqrt (sumSq a)
  let normB := Real.sqrt (sumSq b)
  if normA ≠ 0 ∧ normB ≠ 0 then dot.map (fun d => d / (normA * normB)) else some 0

/-- The loop body of `detectIntent` (rag.js 136-142): replace the best
match only on strict improvement.  A `NaN` score (modelled `none`) fails
the JS comparison `score > bestMatch.score`, leaving the best match
unchanged, exactly as the `none` branch does here. -/
noncomputable def detectStep (queryEmbedding : List ℝ)
    (best : Option String × ℝ) (p : String × List ℝ) : Option String × ℝ :=
  match cosineSimilarity queryEmbedding p.2 with
  | some score => if best.2 < score then (some p.1, score) else best
  | none => best

/-- rag.js 132-145 (`detectIntent`) with the query embedding precomputed
(the source awaits `getEmbedding(query)` first): fold the registered
intents, in `Map` insertion order, starting from the sentinel
`{ name: null, score: -1 }`, and return the best match only when its score
reaches the threshold.  The returned name is `Option String` because the
sentinel's `name` is `null`. -/
noncomputable def detectIntent (queryEmbedding : List ℝ)
    (intents : List (String × List ℝ)) (threshold : ℝ) :
    Option (Option String × ℝ) :=
  let best := intents.foldl (detectStep queryEmbedding)
    ((none : Option String), (-1 : ℝ))
  if threshold ≤ best.2 then some best else none

end IntentRecognizer

/-- Failure modes of `IntentRecognizer.addIntent`.  `typeError` models the
JS `TypeError` thrown when `embeddings[0]` is `undefined` and `.map` is
called on it.  `invalidIntent` is modelled from the spec: the error
taxonomy of spec §7 names an `InvalidIntentError` for zero training
examples, but no such error class exists anywhere in the source. -/
inductive JsIntentFailure where
  | typeError (message : String)
  | invalidIntent
deriving DecidableEq, Repr

namespace IntentRecognizer

/-- rag.js 111-124 (`addIntent`) with the example embeddings precomputed
(the source awaits `getEmbedding` on every example): the centroid is
`embeddings[0].map((_, i) => embeddings.reduce((sum, e) => sum + e[i], 0)
/ embeddings.length)`.  On an empty example list `embeddings[0]` is
`undefined`, so `.map` throws a `TypeError` before anything is stored.
A centroid entry is `none` when a ragged `e[i]` read makes the sum `NaN`
(unreachable when all embeddings share one dimensionality). -/
noncomputable def addIntent (embeddings : List (List ℝ)) :
    Except JsIntentFailure (List (Option ℝ)) :=
  match embeddings with
  | [] => .error (.typeError "Cannot read properties of undefined (reading map)")
  | e0 :: _ =>
    .ok (e0.enum.map (fun p =>
      (embeddings.foldl
          (fun sum e =>
            match sum, e.get? p.1 with
            | some s, some v => some (s + v)
            | _, _ => none)
          (some 0)).map
        (fun s => s / (embeddings.length : ℝ))))

end IntentRecognizer

/-- Collapses every maximal run of JS whitespace into one space; the
`Bool` flag records whether the previous character was inside a run.
Models `replace(/\s+/g, " ")`. -/
def collapseWsAux : Bool → List Char → List Char
  | _, [] => []
  | inRun, c :: cs =>
    if jsWhitespace c then
      (if inRun then collapseWsAux true cs else ' ' :: collapseWsAux true cs)
    else c :: collapseWsAux false cs

/-- Models `replace(/\s+/g, " ")`. -/
def collapseWs (s : List Char) : List Char := collapseWsAux false s

/-- Models `replace(/\s→/g, "→")`: delete a whitespace character directly
before an arrow, scanning left to right with non-overlapping matches. -/
def stripWsArrow : List Char → List Char
  | c1 :: c2 :: rest =>
    if jsWhitespace c1 && c2 = '→' then '→' :: stripWsArrow rest
    else c1 :: stripWsArrow (c2 :: rest)
  | l => l

namespace IntentRecognizer

/-- rag.js 207-214 (`cleanResponse`): keep only arrows, word characters
and whitespace (`replace(/[^→\w\s]/gi, "")`), collapse whitespace runs,
delete whitespace before arrows, truncate to 80 UTF-16 units (every
surviving character is one unit), and trim. -/
def cleanResponse (text : List Char) : List Char :=
  jsTrim (List.take 80 (stripWsArrow (collapseWs
    (text.filter (fun c => c = '→' || jsWordChar c || jsWhitespace c)))))

end IntentRecognizer

/-- rag.js 251-272, the `faq.txt` branch of `loadFile`, given the file
text: split on blank lines (`split('\n\n')`), keep paragraphs that are
non-blank and contain both `Q:` and `A:`, then split each pair on
`'\nA:'`, strip the first `Q:` from the question part and trim both
sides.  The JS destructuring `[questionPart, answerPart]` takes the first
two split parts and drops any later ones; when `'\nA:'` is absent the JS
`answerPart.trim()` would throw, modelled here with the empty list (the
branch is unreachable for pairs containing `'\nA:'`). -/
def loadFaqText (text : List Char) : List Document :=
  ((jsSplitOn (strL "\n\n") text).filter
      (fun qa => !(jsTrim qa).isEmpty && hasSubstr (strL "Q:") qa &&
        hasSubstr (strL "A:") qa)).map
    (fun pair =>
      let parts := jsSplitOn (strL "\nA:") pair
      let question := jsTrim (jsReplaceFirst (strL "Q:") [] (parts.headD []))
      let answer := jsTrim (parts.getD 1 [])
      { pageContent := strL "Question: " ++ question ++ strL "\n" ++
          strL "Answer: " ++ answer,
        metadata :=
          { source := some (strL "FAQ"), type := some (strL "qa"),
            question := some question, answer := some answer } })

/-- Lookahead of the first split alternative `(?=\n#+ )` after its
leading newline: a non-empty run of `#` followed by a space.  Greedy
`#+` with backtracking succeeds exactly when the character after the
maximal `#` run is a space. -/
def headingAhead (rest : List Char) : Bool :=
  let hs := rest.takeWhile (fun c => c = '#')
  !hs.isEmpty && (rest.get? hs.length = some ' ')

/-- Fuel-driven scanner implementing `text.split(/(?=\n#+ )|\n\s*\n/)`
(rag.js 313) following the ECMAScript split algorithm: at each position
the zero-width heading lookahead is tried first (splitting before the
newline, except at the start of a segment), then the blank-line
alternative, whose greedy `\s*` ends at the last newline of the
whitespace run.  `acc` holds the current segment reversed. -/
def sectionGo : ℕ → List Char → List Char → List (List Char)
  | _, acc, [] => [acc.reverse]
  | 0, acc, s => [acc.reverse ++ s]
  | fuel + 1, acc, c :: rest =>
    if c = '\n' && headingAhead rest then
      (if acc.isEmpty then sectionGo fuel [c] rest
       else acc.reverse :: sectionGo fuel [c] rest)
    else if c = '\n' then
      match (rest.takeWhile jsWhitespace).reverse.findIdx? (fun d => d = '\n') with
      | some r =>
        let t := (rest.takeWhile jsWhitespace).length - 1 - r
        acc.reverse :: sectionGo fuel [] (rest.drop (t + 1))
      | none => sectionGo fuel (c :: acc) rest
    else sectionGo fuel (c :: acc) rest

/-- rag.js 313: the section split of the fallback branch of `splitText`. -/
def sectionSplit (text : List Char) : List (List Char) :=
  sectionGo (text.length + 1) [] text

/-- Collapses every maximal run of newlines into one space; models
`replace(/\n+/g, ' ')` (rag.js 315). -/
def collapseNLAux : Bool → List Char → List Char
  | _, [] => []
  | inRun, c :: cs =>
    if c = '\n' then
      (if inRun then collapseNLAux true cs else ' ' :: collapseNLAux true cs)
    else c :: collapseNLAux false cs

/-- Models `replace(/\n+/g, ' ')`. -/
def collapseNL (s : List Char) : List Char := collapseNLAux false s

/-- rag.js 312-318, the fallback branch of `splitText` taken when the
inline `Q:`/`A:` matcher produced no chunks: split into sections, clean
each section (`trim()` then newline-run collapapse), and keep it only when
`clean.length > 50` — the comparison is strict, so 50-character sections
are discarded. -/
def splitTextSections (text : List Char) : List (List Char) :=
  (sectionSplit text).filterMap (fun sec =>
    let clean := collapseNL (jsTrim sec)
    if 50 < clean.length then some clean else none)

/-- Outcome of the generation-service call made by server.js
`generateDynamicAnswer`: either the `fetch` promise rejects (network
failure or timeout), or a response arrives with its `ok` flag, HTTP
status, error text, and the result of parsing the body — `Except.error`
when `response.json()` rejects, otherwise the optional `response` field
(`none` when the field is missing; the JS check `!data?.response` also
fires on an empty string). -/
inductive GenServiceResult where
  | reject (message : String)
  | resolve (ok : Bool) (status : ℕ) (errorText : String)
      (body : Except String (Option String))
deriving Repr

/-- The `try` block of server.js 372-480 (`generateDynamicAnswer`), given
the service outcome: a non-ok response throws `Ollama API error: <status>
- <errorText>`, a body-parse failure rethrows its message, a missing or
empty `response` field throws `Invalid response format from Ollama`, and
a usable response is post-processed by the regex clean-up chain,
abstracted as the `clean` parameter (it is total and cannot throw). -/
def tryGenerateAnswer (svc : GenServiceResult) (clean : String → String) :
    Except String String :=
  match svc with
  | .reject msg => .error msg
  | .resolve ok status errorText body =>
    if ok = false then
      .error ("Ollama API error: " ++ toString status ++ " - " ++ errorText)
    else
      match body with
      | .error msg => .error msg
      | .ok none => .error "Invalid response format from Ollama"
      | .ok (some t) =>
        if t = "" then .error "Invalid response format from Ollama"
        else .ok (clean t)

/-- server.js 372-485 (`generateDynamicAnswer`): the whole body runs in a
`try`/`catch`; the `catch` logs and returns the single fallback string
containing `error.message`. -/
def generateDynamicAnswer (svc : GenServiceResult) (clean : String → String) :
    String :=
  match tryGenerateAnswer svc clean with
  | .ok s => s
  | .error msg => "Let's try a different approach... (" ++ msg ++ ")"

/-- The failure modes of the generation call named by the claim: a
rejected fetch (network error or timeout), a non-success HTTP status, a
malformed body, or a missing/empty `response` field. -/
def isGenFailure : GenServiceResult → Prop
  | .reject _ => True
  | .resolve ok _ _ body =>
    ok = false ∨ (∃ msg, body = .error msg) ∨ body = .ok none ∨
      body = .ok (some "")


/-! ### Arithmetic facts about the shared similarity primitives -/

theorem sumSq_foldl_acc : ∀ (l : List ℝ) (c : ℝ),
    l.foldl (fun s v => s + v ^ 2) c = c + sumSq l := by
  intro l
  induction l with
  | nil => intro c; simp [sumSq]
  | cons x t ih =>
    intro c
    simp only [sumSq, List.foldl_cons, zero_add] at *
    rw [ih (c + x ^ 2), ih (x ^ 2)]
    ring

theorem sumSq_nil : sumSq [] = 0 := rfl

theorem sumSq_cons (x : ℝ) (l : List ℝ) : sumSq (x :: l) = x ^ 2 + sumSq l := by
  simp only [sumSq, List.foldl_cons, zero_add]
  simpa using sumSq_foldl_acc l (x ^ 2)

theorem sumSq_nonneg (l : List ℝ) : 0 ≤ sumSq l := by
  induction l with
  | nil => simp [sumSq_nil]
  | cons x t ih => rw [sumSq_cons]; positivity

theorem sumSq_eq_zero_iff (l : List ℝ) : sumSq l = 0 ↔ ∀ x ∈ l, x = 0 := by
  induction l with
  | nil => simp [sumSq_nil]
  | cons x t ih =>
    rw [sumSq_cons,
      add_eq_zero_iff_of_nonneg (sq_nonneg x) (sumSq_nonneg t),
      pow_eq_zero_iff (two_ne_zero), ih]
    simp

theorem dotAux_nil_left (b : List ℝ) : dotAux [] b = 0 := by
  cases b <;> rfl

theorem dotAux_nil_right (a : List ℝ) : dotAux a [] = 0 := by
  cases a <;> rfl

theorem dotAux_cons_cons (x y : ℝ) (a b : List ℝ) :
    dotAux (x :: a) (y :: b) = x * y + dotAux a b := rfl

theorem dotAux_comm : ∀ (a b : List ℝ), dotAux a b = dotAux b a := by
  intro a
  induction a with
  | nil => intro b; rw [dotAux_nil_left, dotAux_nil_right]
  | cons x t ih =>
    intro b
    cases b with
    | nil => rw [dotAux_nil_left, dotAux_nil_right]
    | cons y s => rw [dotAux_cons_cons, dotAux_cons_cons, ih, mul_comm]

theorem dotAux_self (a : List ℝ) : dotAux a a = sumSq a := by
  induction a with
  | nil => rw [dotAux_nil_left, sumSq_nil]
  | cons x t ih => rw [dotAux_cons_cons, sumSq_cons, ih, sq]

theorem dotAux_cons_drop (x : ℝ) (t b : List ℝ) (n : ℕ) :
    dotAux (x :: t) (b.drop n) = x * b.getD n 0 + dotAux t (b.drop (n + 1)) := by
  rcases h : b.drop n with _ | ⟨y, ys⟩
  · have hlen : b.length ≤ n := List.drop_eq_nil_iff.mp h
    have h1 : b.drop (n + 1) = [] :=
      List.drop_eq_nil_iff.mpr (le_trans hlen (Nat.le_succ n))
    rw [h1, List.getD_eq_default _ _ hlen, dotAux_nil_right, dotAux_nil_right]
    ring
  · have hy : b.get? n = some y := by
      have := List.get?_drop b n 0
      rw [h] at this
      simpa using this.symm
    have hys : b.drop (n + 1) = ys := by
      rw [← List.tail_drop, h]; rfl
    rw [hys, dotAux_cons_cons, List.getD_eq_get?, hy]
    rfl

theorem storeDot_enumFrom (b : List ℝ) : ∀ (a : List ℝ) (n : ℕ) (c : ℝ),
    (List.enumFrom n a).foldl (fun sum p => sum + p.2 * (b.getD p.1 0)) c
      = c + dotAux a (b.drop n) := by
  intro a
  induction a with
  | nil => intro n c; simp [List.enumFrom, dotAux_nil_left]
  | cons x t ih =>
    intro n c
    rw [List.enumFrom_cons, List.foldl_cons, ih (n + 1), dotAux_cons_drop]
    ring

theorem storeDot_eq_dotAux (a b : List ℝ) :
    a.enum.foldl (fun sum p => sum + p.2 * (b.getD p.1 0)) 0 = dotAux a b := by
  have := storeDot_enumFrom b a 0 0
  simpa [List.enum] using this

/-- Guard-normalised form of the vector store's cosine similarity. -/
theorem storeCos_eq (a b : List ℝ) :
    SimpleVectorStore.cosineSimilarity a b =
      if sumSq a ≠ 0 ∧ sumSq b ≠ 0 then
        dotAux a b / (Real.sqrt (sumSq a) * Real.sqrt (sumSq b))
      else 0 := by
  unfold SimpleVectorStore.cosineSimilarity
  rw [storeDot_eq_dotAux]
  have hcond : (Real.sqrt (sumSq a) ≠ 0 ∧ Real.sqrt (sumSq b) ≠ 0) ↔
      (sumSq a ≠ 0 ∧ sumSq b ≠ 0) := by
    rw [Real.sqrt_ne_zero (sumSq_nonneg a), Real.sqrt_ne_zero (sumSq_nonneg b)]
  simp only [hcond]

/-! ### C3 and C4: zero-vector guard, symmetry, self-similarity -/

/-- C3: for every pair of vectors, if either one is all-zero (equivalently
has zero magnitude), `SimpleVectorStore.cosineSimilarity` returns exactly
0: the truthiness guard on the norms short-circuits the division, so the
function is total and never divides by a zero norm. -/
theorem c3_cosineSimilarity_zero_vector (a b : List ℝ)
    (h : (∀ x ∈ a, x = 0) ∨ (∀ x ∈ b, x = 0)) :
    SimpleVectorStore.cosineSimilarity a b = 0 := by
  rw [storeCos_eq]
  rcases h with h | h
  · rw [if_neg]
    rintro ⟨ha, -⟩
    exact ha ((sumSq_eq_zero_iff a).mpr h)
  · rw [if_neg]
    rintro ⟨-, hb⟩
    exact hb ((sumSq_eq_zero_iff b).mpr h)

theorem c3_cosineSimilarity_zero_vector_witness :
    SimpleVectorStore.cosineSimilarity [0] [1, 2] = 0 :=
  c3_cosineSimilarity_zero_vector [0] [1, 2] (Or.inl (by simp))

/-- C4: `SimpleVectorStore.cosineSimilarity` is symmetric for all pairs of
vectors (including mismatched lengths, thanks to the zero-padding of the
dot product), and every non-zero vector has self-similarity exactly 1. -/
theorem c4_cosineSimilarity_symm_self :
    (∀ a b : List ℝ, SimpleVectorStore.cosineSimilarity a b =
      SimpleVectorStore.cosineSimilarity b a) ∧
    (∀ a : List ℝ, (∃ x ∈ a, x ≠ 0) →
      SimpleVectorStore.cosineSimilarity a a = 1) := by
  constructor
  · intro a b
    rw [storeCos_eq, storeCos_eq]
    by_cases ha : sumSq a = 0
    · rw [if_neg (by tauto), if_neg (by tauto)]
    · by_cases hb : sumSq b = 0
      · rw [if_neg (by tauto), if_neg (by tauto)]
      · rw [if_pos ⟨ha, hb⟩, if_pos ⟨hb, ha⟩, dotAux_comm, mul_comm]
  · rintro a ⟨x, hx, hxne⟩
    have hS : sumSq a ≠ 0 := fun h => hxne ((sumSq_eq_zero_iff a).mp h x hx)
    rw [storeCos_eq, if_pos ⟨hS, hS⟩, dotAux_self,
      Real.mul_self_sqrt (sumSq_nonneg a), div_self hS]

theorem c4_cosineSimilarity_symm_self_witness :
    SimpleVectorStore.cosineSimilarity [1, 2] [3] =
      SimpleVectorStore.cosineSimilarity [3] [1, 2] ∧
    SimpleVectorStore.cosineSimilarity [1] [1] = 1 :=
  ⟨c4_cosineSimilarity_symm_self.1 [1, 2] [3],
   c4_cosineSimilarity_symm_self.2 [1] ⟨1, by simp, one_ne_zero⟩⟩

/-! ### The Intent Index's dot product and C9 -/

theorem intentStep_none (b : List ℝ) (l : List (ℕ × ℝ)) :
    l.foldl
      (fun sum p =>
        match sum, b.get? p.1 with
        | some s, some bv => some (s + p.2 * bv)
        | _, _ => none)
      (none : Option ℝ) = none := by
  induction l with
  | nil => rfl
  | cons p t ih => rw [List.foldl_cons]; exact ih

theorem intentDot_enumFrom_defined (b : List ℝ) : ∀ (a : List ℝ) (n : ℕ) (c : ℝ),
    n + a.length ≤ b.length →
    (List.enumFrom n a).foldl
        (fun sum p =>
          match sum, b.get? p.1 with
          | some s, some bv => some (s + p.2 * bv)
          | _, _ => none)
        (some c)
      = some (c + dotAux a (b.drop n)) := by
  intro a
  induction a with
  | nil => intro n c _; simp [List.enumFrom, dotAux_nil_left]
  | cons x t ih =>
    intro n c h
    have hn : n < b.length := by simp at h; omega
    have hy : b.get? n = some (b.get ⟨n, hn⟩) := List.get?_eq_get hn
    rw [List.enumFrom_cons, List.foldl_cons, hy]
    show List.foldl _ (some (c + x * b.get ⟨n, hn⟩)) (List.enumFrom (n + 1) t) = _
    rw [ih (n + 1) (c + x * b.get ⟨n, hn⟩) (by simp at h ⊢; omega),
      dotAux_cons_drop, List.getD_eq_get?, hy]
    simp only [Option.some.injEq, Option.getD_some]
    ring

theorem intentDot_enumFrom_undef (b : List ℝ) : ∀ (a : List ℝ) (n : ℕ) (c : ℝ),
    a ≠ [] → b.length < n + a.length →
    (List.enumFrom n a).foldl
        (fun sum p =>
          match sum, b.get? p.1 with
          | some s, some bv => some (s + p.2 * bv)
          | _, _ => none)
        (some c)
      = none := by
  intro a
  induction a with
  | nil => intro n c ha _; exact absurd rfl ha
  | cons x t ih =>
    intro n c _ h
    rw [List.enumFrom_cons, List.foldl_cons]
    cases hbn : b.get? n with
    | none =>
      exact intentStep_none b _
    | some y =>
      have hn : n < b.length := by
        by_contra hge
        rw [List.get?_eq_none.mpr (by omega)] at hbn
        exact Option.noConfusion hbn
      have ht : t ≠ [] := by
        intro h0
        rw [h0] at h
        simp at h
        omega
      exact ih (n + 1) (c + x * y) ht (by simp at h ⊢; omega)

/-- When the first vector is no longer than the second, the Intent Index's
cosine similarity is defined and agrees with the Vector Store's. -/
theorem intentCos_eq_of_le (a b : List ℝ) (h : a.length ≤ b.length) :
    IntentRecognizer.cosineSimilarity a b =
      some (SimpleVectorStore.cosineSimilarity a b) := by
  unfold IntentRecognizer.cosineSimilarity SimpleVectorStore.cosineSimilarity
  rw [storeDot_eq_dotAux]
  have hdot := intentDot_enumFrom_defined b a 0 0 (by omega)
  simp only [List.enum] at *
  rw [hdot]
  simp only [List.drop_zero, zero_add]
  split_ifs <;> simp

/-- When the first vector is strictly longer and neither norm vanishes,
the Intent Index's cosine similarity is `NaN` (`none`): `b[i]` is read out
of range without the `|| 0` guard. -/
theorem intentCos_none_of_longer (a b : List ℝ) (hb : b.length < a.length)
    (hA : sumSq a ≠ 0) (hB : sumSq b ≠ 0) :
    IntentRecognizer.cosineSimilarity a b = none := by
  have ha : a ≠ [] := by
    intro h
    rw [h] at hb
    simp at hb
  unfold IntentRecognizer.cosineSimilarity
  have hdot := intentDot_enumFrom_undef b a 0 0 ha (by omega)
  simp only [List.enum] at *
  rw [hdot]
  rw [if_pos]
  · rfl
  · constructor
    · rw [Real.sqrt_ne_zero']
      exact lt_of_le_of_ne (sumSq_nonneg a) (Ne.symm hA)
    · rw [Real.sqrt_ne_zero']
      exact lt_of_le_of_ne (sumSq_nonneg b) (Ne.symm hB)

theorem dotAux_zero_right : ∀ (a zs : List ℝ), (∀ z ∈ zs, z = 0) →
    dotAux a zs = 0 := by
  intro a
  induction a with
  | nil => intro zs _; exact dotAux_nil_left zs
  | cons x t ih =>
    intro zs hz
    cases zs with
    | nil => exact dotAux_nil_right _
    | cons z zs' =>
      rw [dotAux_cons_cons, hz z (by simp), ih zs' (fun w hw => hz w (by simp [hw]))]
      ring

theorem dotAux_append_zeros_right : ∀ (a b zs : List ℝ), (∀ z ∈ zs, z = 0) →
    dotAux a (b ++ zs) = dotAux a b := by
  intro a
  induction a with
  | nil => intro b zs _; rw [dotAux_nil_left, dotAux_nil_left]
  | cons x t ih =>
    intro b zs hz
    cases b with
    | nil =>
      rw [List.nil_append, dotAux_zero_right _ zs hz, dotAux_nil_right]
    | cons y s =>
      rw [List.cons_append, dotAux_cons_cons, dotAux_cons_cons, ih s zs hz]

theorem dotAux_append_zeros_left (a b zs : List ℝ) (hz : ∀ z ∈ zs, z = 0) :
    dotAux (a ++ zs) b = dotAux a b := by
  rw [dotAux_comm, dotAux_append_zeros_right b a zs hz, dotAux_comm]

theorem sumSq_append : ∀ (l₁ l₂ : List ℝ), sumSq (l₁ ++ l₂) = sumSq l₁ + sumSq l₂ := by
  intro l₁
  induction l₁ with
  | nil => intro l₂; rw [List.nil_append, sumSq_nil]; ring
  | cons x t ih =>
    intro l₂
    rw [List.cons_append, sumSq_cons, sumSq_cons, ih]
    ring

theorem sumSq_zeroPad (m : ℕ) (l : List ℝ) : sumSq (zeroPad m l) = sumSq l := by
  unfold zeroPad
  rw [sumSq_append, (sumSq_eq_zero_iff _).mpr (fun z hz => List.eq_of_mem_replicate hz)]
  ring

/-- C9, amended: the Vector Store's cosine similarity really does treat a
length mismatch as zero-padding both vectors to the common length, and the
Intent Index's version agrees with it whenever the first vector is no
longer than the second; but when the first vector is strictly longer the
Intent Index's version yields `NaN` (see the counterexample), so the
claim's "never NaN" holds only for the Vector Store. -/
theorem c9_zero_padding_amended :
    (∀ a b : List ℝ,
      SimpleVectorStore.cosineSimilarity a b =
        SimpleVectorStore.cosineSimilarity (zeroPad (max a.length b.length) a)
          (zeroPad (max a.length b.length) b)) ∧
    (∀ a b : List ℝ, a.length ≤ b.length →
      IntentRecognizer.cosineSimilarity a b =
        some (SimpleVectorStore.cosineSimilarity a b)) := by
  constructor
  · intro a b
    rw [storeCos_eq, storeCos_eq, sumSq_zeroPad, sumSq_zeroPad]
    unfold zeroPad
    rw [dotAux_append_zeros_right _ _ _ (fun z hz => List.eq_of_mem_replicate hz),
      dotAux_append_zeros_left _ _ _ (fun z hz => List.eq_of_mem_replicate hz)]
  · exact intentCos_eq_of_le

/-- C9, counterexample to the claim as stated: the Intent Index's
cosine similarity of `[1, 1]` against the shorter `[1]` is `NaN`
(modelled `none`), because `b[1]` is `undefined` and `1 * undefined`
poisons the dot product, while both norms are non-zero. -/
theorem c9_counterexample : IntentRecognizer.cosineSimilarity [1, 1] [1] = none := by
  apply intentCos_none_of_longer
  · simp
  · rw [show ([1, 1] : List ℝ) = 1 :: [1] from rfl, sumSq_cons, sumSq_cons, sumSq_nil]
    norm_num
  · rw [show ([1] : List ℝ) = 1 :: [] from rfl, sumSq_cons, sumSq_nil]
    norm_num

theorem c9_zero_padding_amended_witness :
    ([1] : List ℝ).length ≤ ([1, 0] : List ℝ).length ∧
    IntentRecognizer.cosineSimilarity [1] [1, 0] =
      some (SimpleVectorStore.cosineSimilarity [1] [1, 0]) :=
  ⟨by simp, c9_zero_padding_amended.2 [1] [1, 0] (by simp)⟩

/-! ### C2: intent detection -/

theorem intentCos_one_one : IntentRecognizer.cosineSimilarity [1] [1] = some 1 := by
  rw [intentCos_eq_of_le _ _ (by simp), storeCos_eq]
  have h1 : sumSq [(1 : ℝ)] = 1 := by rw [sumSq_cons, sumSq_nil]; norm_num
  rw [h1, if_pos ⟨one_ne_zero, one_ne_zero⟩, Real.sqrt_one, dotAux_cons_cons,
    dotAux_nil_left]
  norm_num

theorem intentCos_one_negone : IntentRecognizer.cosineSimilarity [1] [-1] = some (-1) := by
  rw [intentCos_eq_of_le _ _ (by simp), storeCos_eq]
  have h1 : sumSq [(1 : ℝ)] = 1 := by rw [sumSq_cons, sumSq_nil]; norm_num
  have h2 : sumSq [(-1 : ℝ)] = 1 := by rw [sumSq_cons, sumSq_nil]; norm_num
  rw [h1, h2, if_pos ⟨one_ne_zero, one_ne_zero⟩, Real.sqrt_one, dotAux_cons_cons,
    dotAux_nil_left]
  norm_num

/-- Characterisation of the `detectIntent` fold: either no defined score
strictly beats the accumulator (which is then returned unchanged), or the
fold returns the first intent whose score strictly beats the accumulator
and every earlier defined score, and is not beaten by any later one. -/
theorem detectFold_spec (qe : List ℝ) : ∀ (l : List (String × List ℝ))
    (b : Option String × ℝ),
    (l.foldl (IntentRecognizer.detectStep qe) b = b ∧
      ∀ q ∈ l, ∀ t, IntentRecognizer.cosineSimilarity qe q.2 = some t → t ≤ b.2) ∨
    (∃ l₁ p l₂ s, l = l₁ ++ p :: l₂ ∧
      IntentRecognizer.cosineSimilarity qe p.2 = some s ∧
      l.foldl (IntentRecognizer.detectStep qe) b = (some p.1, s) ∧ b.2 < s ∧
      (∀ q ∈ l₁, ∀ t, IntentRecognizer.cosineSimilarity qe q.2 = some t → t < s) ∧
      (∀ q ∈ l₂, ∀ t, IntentRecognizer.cosineSimilarity qe q.2 = some t → t ≤ s)) := by
  intro l
  induction l with
  | nil => intro b; left; exact ⟨rfl, by simp⟩
  | cons p0 rest ih =>
    intro b
    rw [List.foldl_cons]
    cases hc : IntentRecognizer.cosineSimilarity qe p0.2 with
    | none =>
      have hstep : IntentRecognizer.detectStep qe b p0 = b := by
        unfold IntentRecognizer.detectStep
        rw [hc]
      rw [hstep]
      rcases ih b with ⟨heq, hall⟩ | ⟨l₁, p, l₂, s, hdec, hcos, hfold, hlt, hbef, haft⟩
      · left
        refine ⟨heq, ?_⟩
        intro q hq t ht
        rcases List.mem_cons.mp hq with rfl | hq'
        · rw [hc] at ht; exact Option.noConfusion ht
        · exact hall q hq' t ht
      · right
        refine ⟨p0 :: l₁, p, l₂, s, by rw [hdec, List.cons_append], hcos, hfold, hlt,
          ?_, haft⟩
        intro q hq t ht
        rcases List.mem_cons.mp hq with rfl | hq'
        · rw [hc] at ht; exact Option.noConfusion ht
        · exact hbef q hq' t ht
    | some score =>
      by_cases hgt : b.2 < score
      · have hstep : IntentRecognizer.detectStep qe b p0 = (some p0.1, score) := by
          unfold IntentRecognizer.detectStep
          rw [hc]
          show (if b.2 < score then (some p0.1, score) else b) = _
          rw [if_pos hgt]
        rw [hstep]
        rcases ih (some p0.1, score) with ⟨heq, hall⟩ |
          ⟨l₁, p, l₂, s, hdec, hcos, hfold, hlt2, hbef, haft⟩
        · right
          refine ⟨[], p0, rest, score, by simp, hc, by rw [heq], hgt, by simp, ?_⟩
          intro q hq t ht
          exact hall q hq t ht
        · right
          refine ⟨p0 :: l₁, p, l₂, s, by rw [hdec, List.cons_append], hcos, hfold,
            lt_trans hgt hlt2, ?_, haft⟩
          intro q hq t ht
          rcases List.mem_cons.mp hq with rfl | hq'
          · rw [hc] at ht
            injection ht with ht'
            rw [← ht']
            exact hlt2
          · exact hbef q hq' t ht
      · have hstep : IntentRecognizer.detectStep qe b p0 = b := by
          unfold IntentRecognizer.detectStep
          rw [hc]
          show (if b.2 < score then (some p0.1, score) else b) = _
          rw [if_neg hgt]
        rw [hstep]
        rcases ih b with ⟨heq, hall⟩ | ⟨l₁, p, l₂, s, hdec, hcos, hfold, hlt2, hbef, haft⟩
        · left
          refine ⟨heq, ?_⟩
          intro q hq t ht
          rcases List.mem_cons.mp hq with rfl | hq'
          · rw [hc] at ht
            injection ht with ht'
            rw [← ht']
            exact not_lt.mp hgt
          · exact hall q hq' t ht
        · right
          refine ⟨p0 :: l₁, p, l₂, s, by rw [hdec, List.cons_append], hcos, hfold, hlt2,
            ?_, haft⟩
          intro q hq t ht
          rcases List.mem_cons.mp hq with rfl | hq'
          · rw [hc] at ht
            injection ht with ht'
            rw [← ht']
            exact lt_of_le_of_lt (not_lt.mp hgt) hlt2
          · exact hbef q hq' t ht

/-- C2, counterexample to the claim as stated: with one registered intent
whose centroid scores exactly -1 against the query, and threshold -1, the
sentinel `{ name: null, score: -1 }` is never replaced (the comparison is
strict) yet passes the `>=` threshold check, so `detectIntent` returns a
match whose name is `null` — neither "none" nor the highest-scoring
registered intent. -/
theorem c2_counterexample :
    IntentRecognizer.detectIntent [1] [("password_change", [-1])] (-1) =
      some (none, -1) ∧
    IntentRecognizer.detectIntent [1] [("password_change", [-1])] (-1) ≠ none ∧
    ∀ (nm : String) (sc : ℝ),
      IntentRecognizer.detectIntent [1] [("password_change", [-1])] (-1) ≠
        some (some nm, sc) := by
  have hstep : IntentRecognizer.detectStep [1] (none, -1) ("password_change", [-1]) =
      (none, -1) := by
    unfold IntentRecognizer.detectStep
    rw [intentCos_one_negone]
    simp
  have h1 : IntentRecognizer.detectIntent [1] [("password_change", [-1])] (-1) =
      some (none, -1) := by
    simp only [IntentRecognizer.detectIntent, List.foldl_cons, List.foldl_nil, hstep]
    rw [if_pos (le_refl _)]
  refine ⟨h1, by rw [h1]; simp, ?_⟩
  intro nm sc
  rw [h1]
  simp

/-- C2, amended: for every threshold strictly greater than the -1
sentinel, `detectIntent` returns none when every defined similarity is
below the threshold, and otherwise returns the first-registered intent
achieving the (strictly improving) maximum, with its score meeting the
threshold; ties are broken in favour of the first-registered intent. -/
theorem c2_detectIntent_amended (qe : List ℝ) (intents : List (String × List ℝ))
    (threshold : ℝ) (hthr : -1 < threshold) :
    ((∀ q ∈ intents, ∀ t, IntentRecognizer.cosineSimilarity qe q.2 = some t →
        t < threshold) →
      IntentRecognizer.detectIntent qe intents threshold = none) ∧
    ((∃ q ∈ intents, ∃ t, IntentRecognizer.cosineSimilarity qe q.2 = some t ∧
        threshold ≤ t) →
      ∃ l₁ p l₂ s, intents = l₁ ++ p :: l₂ ∧
        IntentRecognizer.cosineSimilarity qe p.2 = some s ∧
        IntentRecognizer.detectIntent qe intents threshold = some (some p.1, s) ∧
        threshold ≤ s ∧
        (∀ q ∈ l₁, ∀ t, IntentRecognizer.cosineSimilarity qe q.2 = some t → t < s) ∧
        (∀ q ∈ l₂, ∀ t, IntentRecognizer.cosineSimilarity qe q.2 = some t → t ≤ s)) := by
  constructor
  · intro hall
    simp only [IntentRecognizer.detectIntent]
    rcases detectFold_spec qe intents (none, -1) with ⟨heq, -⟩ |
      ⟨l₁, p, l₂, s, hdec, hcos, hfold, -, -, -⟩
    · rw [heq, if_neg (not_le.mpr hthr)]
    · have hp : p ∈ intents := by rw [hdec]; simp
      rw [hfold, if_neg (not_le.mpr (hall p hp s hcos))]
  · rintro ⟨p₀, hp₀, s₀, hc₀, hs₀⟩
    rcases detectFold_spec qe intents (none, -1) with ⟨-, hall⟩ |
      ⟨l₁, p, l₂, s, hdec, hcos, hfold, -, hbef, haft⟩
    · exact absurd (hall p₀ hp₀ s₀ hc₀) (by simp; linarith)
    · have hs : threshold ≤ s := by
        rw [hdec] at hp₀
        rcases List.mem_append.mp hp₀ with h₁ | h₂
        · exact le_of_lt (lt_of_le_of_lt hs₀ (hbef p₀ h₁ s₀ hc₀))
        · rcases List.mem_cons.mp h₂ with rfl | h₃
          · rw [hcos] at hc₀
            injection hc₀ with h'
            rw [h']
            exact hs₀
          · exact le_trans hs₀ (haft p₀ h₃ s₀ hc₀)
      refine ⟨l₁, p, l₂, s, hdec, hcos, ?_, hs, hbef, haft⟩
      simp only [IntentRecognizer.detectIntent]
      rw [hfold, if_pos hs]

theorem c2_detectIntent_amended_witness :
    (-1 : ℝ) < 0.75 ∧
    (∃ l₁ p l₂ s,
      ([("password_change", [1])] : List (String × List ℝ)) = l₁ ++ p :: l₂ ∧
      IntentRecognizer.cosineSimilarity [1] p.2 = some s ∧
      IntentRecognizer.detectIntent [1] [("password_change", [1])] 0.75 =
        some (some p.1, s) ∧
      (0.75 : ℝ) ≤ s ∧
      (∀ q ∈ l₁, ∀ t, IntentRecognizer.cosineSimilarity [1] q.2 = some t → t < s) ∧
      (∀ q ∈ l₂, ∀ t, IntentRecognizer.cosineSimilarity [1] q.2 = some t → t ≤ s)) :=
  ⟨by norm_num,
   (c2_detectIntent_amended [1] [("password_change", [1])] 0.75 (by norm_num)).2
     ⟨("password_change", [1]), by simp, 1, intentCos_one_one, by norm_num⟩⟩

/-! ### C1: similarity search -/

theorem rankedBefore_of_le {x y : SimpleVectorStore.ScoreEntry}
    (h : SimpleVectorStore.rankingScore y ≤ SimpleVectorStore.rankingScore x)
    (hidx : x.idx < y.idx) : SimpleVectorStore.rankedBefore x y := by
  rcases lt_or_eq_of_le h with h' | h'
  · exact Or.inl h'
  · exact Or.inr ⟨h'.symm, hidx⟩

theorem le_of_rankedBefore {x y : SimpleVectorStore.ScoreEntry}
    (h : SimpleVectorStore.rankedBefore x y) :
    SimpleVectorStore.rankingScore y ≤ SimpleVectorStore.rankingScore x := by
  rcases h with h' | ⟨h', -⟩
  · exact le_of_lt h'
  · exact le_of_eq h'.symm

theorem pairwise_orderedInsert_rank (a : SimpleVectorStore.ScoreEntry) :
    ∀ S : List SimpleVectorStore.ScoreEntry,
    S.Pairwise SimpleVectorStore.rankedBefore → (∀ b ∈ S, a.idx < b.idx) →
    (@List.orderedInsert _
        (fun x y => SimpleVectorStore.rankingScore y ≤ SimpleVectorStore.rankingScore x)
        (fun _ _ => Real.decidableLE _ _) a S).Pairwise
      SimpleVectorStore.rankedBefore := by
  intro S
  induction S with
  | nil =>
    intro _ _
    simp [List.orderedInsert]
  | cons b S' ih =>
    intro hS ha
    obtain ⟨hb, hS'⟩ := List.pairwise_cons.mp hS
    by_cases hr : SimpleVectorStore.rankingScore b ≤ SimpleVectorStore.rankingScore a
    · rw [List.orderedInsert, if_pos hr]
      refine List.pairwise_cons.mpr ⟨?_, hS⟩
      intro y hy
      rcases List.mem_cons.mp hy with rfl | hy'
      · exact rankedBefore_of_le hr (ha y (by simp))
      · exact rankedBefore_of_le
          (le_trans (le_of_rankedBefore (hb y hy')) hr)
          (ha y (List.mem_cons_of_mem _ hy'))
    · rw [List.orderedInsert, if_neg hr]
      refine List.pairwise_cons.mpr
        ⟨?_, ih hS' (fun y hy => ha y (List.mem_cons_of_mem _ hy))⟩
      intro y hy
      rcases (List.mem_orderedInsert _).mp hy with rfl | hy'
      · exact Or.inl (not_le.mp hr)
      · exact hb y hy'

theorem pairwise_insertionSort_rank :
    ∀ l : List SimpleVectorStore.ScoreEntry,
    l.Pairwise (fun x y => x.idx < y.idx) →
    (@List.insertionSort _
        (fun x y => SimpleVectorStore.rankingScore y ≤ SimpleVectorStore.rankingScore x)
        (fun _ _ => Real.decidableLE _ _) l).Pairwise
      SimpleVectorStore.rankedBefore := by
  intro l
  induction l with
  | nil =>
    intro _
    simp [List.insertionSort]
  | cons a l' ih =>
    intro hl
    obtain ⟨ha, hl'⟩ := List.pairwise_cons.mp hl
    rw [List.insertionSort]
    apply pairwise_orderedInsert_rank
    · exact ih hl'
    · intro b hb
      exact ha b ((List.perm_insertionSort _ l').mem_iff.mp hb)

theorem fst_le_of_mem_enumFrom {α : Type*} :
    ∀ (l : List α) (m : ℕ) (q : ℕ × α), q ∈ List.enumFrom m l → m ≤ q.1 := by
  intro l
  induction l with
  | nil => intro m q hq; simp [List.enumFrom] at hq
  | cons x t ih =>
    intro m q hq
    rw [List.enumFrom_cons] at hq
    rcases List.mem_cons.mp hq with rfl | hq'
    · exact le_refl m
    · exact le_trans (Nat.le_succ m) (ih (m + 1) q hq')

theorem pairwise_fst_enumFrom {α : Type*} :
    ∀ (l : List α) (n : ℕ), (List.enumFrom n l).Pairwise (fun p q => p.1 < q.1) := by
  intro l
  induction l with
  | nil => intro n; simp [List.enumFrom]
  | cons x t ih =>
    intro n
    rw [List.enumFrom_cons]
    refine List.pairwise_cons.mpr ⟨?_, ih (n + 1)⟩
    intro q hq
    exact lt_of_lt_of_le (Nat.lt_succ_self n) (fst_le_of_mem_enumFrom t (n + 1) q hq)

theorem scoreList_pairwise_idx (vectors : List (List ℝ)) (documents : List Document)
    (queryVector : List ℝ) :
    (SimpleVectorStore.scoreList vectors documents queryVector).Pairwise
      (fun x y => x.idx < y.idx) := by
  unfold SimpleVectorStore.scoreList
  rw [List.pairwise_map]
  exact (pairwise_fst_enumFrom documents 0).imp (fun h => h)

/-- C1: `similaritySearch` returns at most `k` documents; every entry that
survives filtering has raw similarity at least `minScore` (the keyword
bonus plays no role in the filter, which the permutation with the
raw-score filter makes explicit); the sorted entries are ordered by
strictly descending ranking score with ties broken by insertion index
(stable sort); every returned document comes from a surviving entry; and
the returned list is exactly the documents of the first `k` sorted
entries. -/
theorem c1_similaritySearch_spec (vectors : List (List ℝ)) (documents : List Document)
    (queryVector : List ℝ) (k : ℕ) (minScore : ℝ) :
    (SimpleVectorStore.similaritySearch vectors documents queryVector k minScore).length
        ≤ k ∧
    (∀ e ∈ SimpleVectorStore.sortedScores vectors documents queryVector minScore,
      minScore ≤ e.score) ∧
    (∀ d ∈ SimpleVectorStore.similaritySearch vectors documents queryVector k minScore,
      ∃ e ∈ SimpleVectorStore.sortedScores vectors documents queryVector minScore,
        d = e.doc ∧ minScore ≤ e.score) ∧
    (SimpleVectorStore.sortedScores vectors documents queryVector minScore).Pairwise
      SimpleVectorStore.rankedBefore ∧
    (SimpleVectorStore.sortedScores vectors documents queryVector minScore).Perm
      ((SimpleVectorStore.scoreList vectors documents queryVector).filter
        (fun e => decide (minScore ≤ e.score))) ∧
    SimpleVectorStore.similaritySearch vectors documents queryVector k minScore =
      ((SimpleVectorStore.sortedScores vectors documents queryVector minScore).take
        k).map (fun e => e.doc) := by
  have hperm :
      (SimpleVectorStore.sortedScores vectors documents queryVector minScore).Perm
        ((SimpleVectorStore.scoreList vectors documents queryVector).filter
          (fun e => decide (minScore ≤ e.score))) := by
    unfold SimpleVectorStore.sortedScores
    exact List.perm_insertionSort _ _
  have hmin : ∀ e ∈ SimpleVectorStore.sortedScores vectors documents queryVector
      minScore, minScore ≤ e.score := by
    intro e he
    have := List.mem_filter.mp (hperm.mem_iff.mp he)
    exact of_decide_eq_true this.2
  refine ⟨?_, hmin, ?_, ?_, hperm, rfl⟩
  · simp only [SimpleVectorStore.similaritySearch, List.length_map, List.length_take]
    exact min_le_left _ _
  · intro d hd
    obtain ⟨e, he, rfl⟩ := List.mem_map.mp hd
    have he' : e ∈ SimpleVectorStore.sortedScores vectors documents queryVector
        minScore := List.mem_of_mem_take he
    exact ⟨e, he', rfl, hmin e he'⟩
  · unfold SimpleVectorStore.sortedScores
    exact pairwise_insertionSort_rank _
      ((scoreList_pairwise_idx vectors documents queryVector).filter _)

/-! ### C5: FAQ round-trip -/

/-- C5: ingesting the two-entry FAQ text yields exactly the two `qa`
chunks, with question and answer correctly split from the `Q:`/`A:`
markers and the content in the canonical `Question: …\nAnswer: …` form. -/
theorem c5_faq_roundtrip :
    loadFaqText (strL "Q: What is X?\nA: X is Y.\n\nQ: How?\nA: Like this.") =
      [{ pageContent := strL "Question: What is X?\nAnswer: X is Y.",
         metadata :=
           { source := some (strL "FAQ"), type := some (strL "qa"),
             question := some (strL "What is X?"),
             answer := some (strL "X is Y.") } },
       { pageContent := strL "Question: How?\nAnswer: Like this.",
         metadata :=
           { source := some (strL "FAQ"), type := some (strL "qa"),
             question := some (strL "How?"),
             answer := some (strL "Like this.") } }] := by
  decide

/-! ### C6: addIntent with no examples -/

/-- C6, counterexample to the claim as stated: `addIntent` with an empty
example list does not fail with an `InvalidIntentError` — no such error
class exists in the source; it fails with a JS `TypeError` because
`embeddings[0]` is `undefined`. -/
theorem c6_counterexample :
    IntentRecognizer.addIntent [] ≠ Except.error JsIntentFailure.invalidIntent ∧
    IntentRecognizer.addIntent [] =
      Except.error (JsIntentFailure.typeError
        "Cannot read properties of undefined (reading map)") := by
  constructor
  · intro h
    simp [IntentRecognizer.addIntent] at h
  · rfl

/-- C6, amended: `addIntent` with an empty example list does fail — there
is no stored intent and the call throws — but the failure is an unchecked
`TypeError` from `embeddings[0].map`, not a dedicated `InvalidIntentError`
(the source performs no explicit validation). -/
theorem c6_addIntent_empty_fails :
    ∃ msg, IntentRecognizer.addIntent [] =
      Except.error (JsIntentFailure.typeError msg) :=
  ⟨"Cannot read properties of undefined (reading map)", rfl⟩

/-! ### C7: generation failures become one fallback message -/

theorem leadsWith_self_append : ∀ (l t : List Char), leadsWith l (l ++ t) = true := by
  intro l
  induction l with
  | nil => intro t; rfl
  | cons c cs ih => intro t; simp [leadsWith, ih]

theorem hasSubstr_sandwich : ∀ (pre pat suf : List Char),
    hasSubstr pat (pre ++ (pat ++ suf)) = true := by
  intro pre
  induction pre with
  | nil =>
    intro pat suf
    cases pat with
    | nil => cases suf <;> simp [hasSubstr, leadsWith]
    | cons p ps => simp [hasSubstr, leadsWith, leadsWith_self_append]
  | cons c pre' ih =>
    intro pat suf
    simp [hasSubstr, ih]

theorem fallback_contains (msg : String) :
    hasSubstr (strL msg)
      (strL ("Let's try a different approach... (" ++ msg ++ ")")) = true := by
  unfold strL
  rw [String.data_append, String.data_append, List.append_assoc]
  exact hasSubstr_sandwich _ _ _

theorem generateDynamicAnswer_of_error (svc : GenServiceResult)
    (clean : String → String) (msg : String)
    (h : tryGenerateAnswer svc clean = .error msg) :
    generateDynamicAnswer svc clean =
      "Let's try a different approach... (" ++ msg ++ ")" := by
  unfold generateDynamicAnswer
  rw [h]

/-- C7: on every failure of the generation call — rejected fetch
(network error or timeout), non-success HTTP status, malformed body, or
missing/empty `response` field — `generateDynamicAnswer` returns exactly
the single apologetic fallback string containing the error detail, and
never lets the exception escape: the `catch` converts every `.error` of
the try-block into the fallback string. -/
theorem c7_generation_failure_fallback (svc : GenServiceResult)
    (clean : String → String) (h : isGenFailure svc) :
    ∃ msg, tryGenerateAnswer svc clean = .error msg ∧
      generateDynamicAnswer svc clean =
        "Let's try a different approach... (" ++ msg ++ ")" ∧
      hasSubstr (strL msg) (strL (generateDynamicAnswer svc clean)) = true := by
  have key : ∃ msg, tryGenerateAnswer svc clean = .error msg := by
    cases svc with
    | reject msg => exact ⟨msg, rfl⟩
    | resolve ok status errorText body =>
      cases ok with
      | false =>
        exact ⟨"Ollama API error: " ++ toString status ++ " - " ++ errorText,
          by simp [tryGenerateAnswer]⟩
      | true =>
        rcases h with hok | ⟨msg, hbody⟩ | hbody | hbody
        · exact absurd hok (by simp)
        · subst hbody
          exact ⟨msg, by simp [tryGenerateAnswer]⟩
        · subst hbody
          exact ⟨"Invalid response format from Ollama", by simp [tryGenerateAnswer]⟩
        · subst hbody
          exact ⟨"Invalid response format from Ollama", by simp [tryGenerateAnswer]⟩
  obtain ⟨msg, hmsg⟩ := key
  have hg := generateDynamicAnswer_of_error svc clean msg hmsg
  refine ⟨msg, hmsg, hg, ?_⟩
  rw [hg]
  exact fallback_contains msg

theorem c7_generation_failure_fallback_witness :
    isGenFailure (GenServiceResult.resolve false 500 "boom" (.ok none)) ∧
    ∃ msg,
      tryGenerateAnswer (GenServiceResult.resolve false 500 "boom" (.ok none)) id =
        .error msg ∧
      generateDynamicAnswer (GenServiceResult.resolve false 500 "boom" (.ok none)) id =
        "Let's try a different approach... (" ++ msg ++ ")" ∧
      hasSubstr (strL msg)
        (strL (generateDynamicAnswer
          (GenServiceResult.resolve false 500 "boom" (.ok none)) id)) = true :=
  ⟨Or.inl rfl,
   c7_generation_failure_fallback (GenServiceResult.resolve false 500 "boom" (.ok none))
     id (Or.inl rfl)⟩

/-! ### C8: the fallback segmentation of splitText -/

/-- C8, counterexample to the claim as stated: a section of exactly 50
characters (here 50 `a`s, which contains no `Q:`/`A:` pattern and no split
point, so the fallback path sees it as one section) is discarded, because
the source keeps a cleaned section only when `clean.length > 50`; the
claim says segments of 50 or more characters are kept. -/
theorem c8_counterexample :
    sectionSplit (List.replicate 50 'a') = [List.replicate 50 'a'] ∧
    collapseNL (jsTrim (List.replicate 50 'a')) = List.replicate 50 'a' ∧
    splitTextSections (List.replicate 50 'a') = [] := by
  refine ⟨by decide, by decide, by decide⟩

/-- C8, amended: in the fallback path of `splitText`, the kept chunks are
exactly the trimmed, newline-collapsed sections of length strictly
greater than 50, in section order; every section whose cleaned form has
50 or fewer characters is discarded. -/
theorem c8_splitText_fallback_filter (text : List Char) :
    splitTextSections text =
      ((sectionSplit text).map (fun sec => collapseNL (jsTrim sec))).filter
        (fun c => decide (50 < c.length)) ∧
    (∀ s ∈ splitTextSections text, 50 < s.length) ∧
    (∀ sec ∈ sectionSplit text, 50 < (collapseNL (jsTrim sec)).length →
      collapseNL (jsTrim sec) ∈ splitTextSections text) := by
  have key : ∀ l : List (List Char),
      (l.filterMap (fun sec =>
        let clean := collapseNL (jsTrim sec)
        if 50 < clean.length then some clean else none)) =
      ((l.map (fun sec => collapseNL (jsTrim sec))).filter
        (fun c => decide (50 < c.length))) := by
    intro l
    induction l with
    | nil => rfl
    | cons a t ih =>
      simp only [List.filterMap_cons, List.map_cons, List.filter_cons]
      by_cases h : 50 < (collapseNL (jsTrim a)).length
      · simp [h, ih]
      · simp [h, ih]
  refine ⟨key (sectionSplit text), ?_, ?_⟩
  · intro s hs
    obtain ⟨sec, -, hsec⟩ := List.mem_filterMap.mp hs
    by_cases h : 50 < (collapseNL (jsTrim sec)).length
    · simp only [if_pos h] at hsec
      injection hsec with h'
      rw [← h']
      exact h
    · simp only [if_neg h] at hsec
      exact Option.noConfusion hsec
  · intro sec hsec h
    exact List.mem_filterMap.mpr ⟨sec, hsec, by simp only [if_pos h]⟩

/-! ### C10: cleanResponse -/

theorem collapseWsAux_mem : ∀ (s : List Char) (flag : Bool) (c : Char),
    c ∈ collapseWsAux flag s → c = ' ' ∨ (c ∈ s ∧ jsWhitespace c = false) := by
  intro s
  induction s with
  | nil => intro flag c hc; simp [collapseWsAux] at hc
  | cons a t ih =>
    intro flag c hc
    by_cases ha : jsWhitespace a = true
    · cases flag with
      | true =>
        simp only [collapseWsAux, ha, if_true] at hc
        rcases ih true c hc with h | ⟨hm, hw⟩
        · exact Or.inl h
        · exact Or.inr ⟨List.mem_cons_of_mem a hm, hw⟩
      | false =>
        simp only [collapseWsAux, ha, if_true, Bool.false_eq_true, if_false] at hc
        rcases List.mem_cons.mp hc with rfl | hc'
        · exact Or.inl rfl
        · rcases ih true c hc' with h | ⟨hm, hw⟩
          · exact Or.inl h
          · exact Or.inr ⟨List.mem_cons_of_mem a hm, hw⟩
    · simp only [collapseWsAux, ha, if_false] at hc
      rcases List.mem_cons.mp hc with rfl | hc'
      · exact Or.inr ⟨List.mem_cons_self _ _, Bool.not_eq_true _ ▸ ha⟩
      · rcases ih false c hc' with h | ⟨hm, hw⟩
        · exact Or.inl h
        · exact Or.inr ⟨List.mem_cons_of_mem a hm, hw⟩

theorem collapseWsAux_head_true : ∀ (s : List Char) (c : Char),
    (collapseWsAux true s).head? = some c → jsWhitespace c = false := by
  intro s
  induction s with
  | nil => intro c hc; simp [collapseWsAux] at hc
  | cons a t ih =>
    intro c hc
    by_cases ha : jsWhitespace a = true
    · simp only [collapseWsAux, ha, if_true] at hc
      exact ih c hc
    · simp only [collapseWsAux, ha, if_false, List.head?_cons] at hc
      injection hc with hc'
      rw [← hc']
      exact Bool.not_eq_true _ ▸ ha

theorem collapseWsAux_chain : ∀ (s : List Char) (flag : Bool),
    (collapseWsAux flag s).Chain'
      (fun a b => ¬(jsWhitespace a = true ∧ jsWhitespace b = true)) := by
  intro s
  induction s with
  | nil => intro flag; simp [collapseWsAux]
  | cons a t ih =>
    intro flag
    by_cases ha : jsWhitespace a = true
    · cases flag with
      | true =>
        simp only [collapseWsAux, ha, if_true]
        exact ih true
      | false =>
        simp only [collapseWsAux, ha, if_true, Bool.false_eq_true, if_false]
        refine List.chain'_cons'.mpr ⟨?_, ih true⟩
        intro y hy
        rintro ⟨-, hyw⟩
        rw [collapseWsAux_head_true t y hy] at hyw
        exact Bool.false_ne_true hyw
    · simp only [collapseWsAux, ha, if_false]
      refine List.chain'_cons'.mpr ⟨?_, ih false⟩
      intro y _
      rintro ⟨haw, -⟩
      exact ha haw

theorem stripWsArrow_mem : ∀ (l : List Char) (c : Char),
    c ∈ stripWsArrow l → c = '→' ∨ c ∈ l := by
  intro l
  induction l using stripWsArrow.induct with
  | case1 c1 c2 rest h ih =>
    intro c hc
    simp only [stripWsArrow, h, if_true] at hc
    rcases List.mem_cons.mp hc with rfl | hc'
    · exact Or.inl rfl
    · rcases ih c hc' with h' | h'
      · exact Or.inl h'
      · exact Or.inr (by simp [h'])
  | case2 c1 c2 rest h ih =>
    intro c hc
    simp only [stripWsArrow, h, if_false] at hc
    rcases List.mem_cons.mp hc with rfl | hc'
    · exact Or.inr (List.mem_cons_self _ _)
    · rcases ih c hc' with h' | h'
      · exact Or.inl h'
      · exact Or.inr (List.mem_cons_of_mem _ h')
  | case3 l h =>
    intro c hc
    cases l with
    | nil => simp [stripWsArrow] at hc
    | cons a t =>
      cases t with
      | nil =>
        simp only [stripWsArrow] at hc
        exact Or.inr hc
      | cons b t' => exact absurd rfl (h a b t')

theorem stripWsArrow_head : ∀ (l : List Char) (c : Char),
    (stripWsArrow l).head? = some c → c = '→' ∨ l.head? = some c := by
  intro l c hc
  cases l with
  | nil => simp [stripWsArrow] at hc
  | cons a t =>
    cases t with
    | nil =>
      simp only [stripWsArrow] at hc
      exact Or.inr hc
    | cons b t' =>
      by_cases h : (jsWhitespace a && decide (b = '→')) = true
      · simp only [stripWsArrow] at hc
        rw [if_pos h, List.head?_cons] at hc
        injection hc with hc'
        exact Or.inl hc'.symm
      · simp only [stripWsArrow] at hc
        rw [if_neg h, List.head?_cons] at hc
        exact Or.inr (by rw [List.head?_cons]; exact hc)

theorem stripWsArrow_chain : ∀ (l : List Char),
    l.Chain' (fun a b => ¬(jsWhitespace a = true ∧ jsWhitespace b = true)) →
    (stripWsArrow l).Chain'
      (fun a b => ¬(jsWhitespace a = true ∧ jsWhitespace b = true)) := by
  intro l
  induction l using stripWsArrow.induct with
  | case1 c1 c2 rest h ih =>
    intro hl
    simp only [stripWsArrow, h, if_true]
    refine List.chain'_cons'.mpr ⟨?_, ih ((hl.tail).tail)⟩
    intro y _
    rintro ⟨harr, -⟩
    exact absurd harr (by decide)
  | case2 c1 c2 rest h ih =>
    intro hl
    simp only [stripWsArrow, h, if_false]
    obtain ⟨h12, hl'⟩ := List.chain'_cons.mp hl
    refine List.chain'_cons'.mpr ⟨?_, ih hl'⟩
    intro y hy
    rcases stripWsArrow_head (c2 :: rest) y hy with rfl | hy'
    · rintro ⟨-, harr⟩
      exact absurd harr (by decide)
    · rw [List.head?_cons] at hy'
      injection hy' with hy''
      rw [← hy'']
      exact h12
  | case3 l h =>
    intro hl
    cases l with
    | nil => simp [stripWsArrow]
    | cons a t =>
      cases t with
      | nil => simp [stripWsArrow]
      | cons b t' => exact absurd rfl (h a b t')

theorem dropWhile_head_not (p : Char → Bool) : ∀ (l : List Char) (c : Char),
    (l.dropWhile p).head? = some c → p c = false := by
  intro l
  induction l with
  | nil => intro c hc; simp at hc
  | cons a t ih =>
    intro c hc
    by_cases ha : p a = true
    · rw [List.dropWhile_cons, if_pos ha] at hc
      exact ih c hc
    · rw [List.dropWhile_cons, if_neg ha, List.head?_cons] at hc
      injection hc with h'
      rw [← h']
      exact Bool.not_eq_true _ ▸ ha

theorem mem_of_mem_dropWhile (p : Char → Bool) {l : List Char} {c : Char}
    (h : c ∈ l.dropWhile p) : c ∈ l := by
  obtain ⟨t, ht⟩ := List.dropWhile_suffix (l := l) p
  rw [← ht]
  exact List.mem_append_right t h

theorem suffix_length_le {l₁ l₂ : List Char} (h : l₁ <:+ l₂) :
    l₁.length ≤ l₂.length := by
  obtain ⟨t, rfl⟩ := h
  simp

theorem jsTrim_subset (s : List Char) : ∀ c ∈ jsTrim s, c ∈ s := by
  intro c hc
  unfold jsTrim at hc
  rw [List.mem_reverse] at hc
  have h1 := mem_of_mem_dropWhile jsWhitespace hc
  rw [List.mem_reverse] at h1
  exact mem_of_mem_dropWhile jsWhitespace h1

theorem jsTrim_chain (s : List Char)
    (hs : s.Chain' (fun a b => ¬(jsWhitespace a = true ∧ jsWhitespace b = true))) :
    (jsTrim s).Chain'
      (fun a b => ¬(jsWhitespace a = true ∧ jsWhitespace b = true)) := by
  unfold jsTrim
  have h1 := hs.suffix (List.dropWhile_suffix jsWhitespace)
  have h2 : ((s.dropWhile jsWhitespace).reverse).Chain'
      (fun a b => ¬(jsWhitespace a = true ∧ jsWhitespace b = true)) := by
    rw [List.chain'_reverse]
    exact h1.imp (fun a b hab => fun h => hab ⟨h.2, h.1⟩)
  have h3 := h2.suffix (List.dropWhile_suffix jsWhitespace)
  rw [List.chain'_reverse]
  exact h3.imp (fun a b hab => fun h => hab ⟨h.2, h.1⟩)

theorem jsTrim_head (s : List Char) (c : Char)
    (hc : (jsTrim s).head? = some c) : jsWhitespace c = false := by
  unfold jsTrim at hc
  obtain ⟨pre, hpre⟩ :=
    List.dropWhile_suffix (l := (s.dropWhile jsWhitespace).reverse) jsWhitespace
  have hp : ((s.dropWhile jsWhitespace).reverse.dropWhile jsWhitespace).reverse <+:
      s.dropWhile jsWhitespace := by
    have hsfx : (s.dropWhile jsWhitespace).reverse.dropWhile jsWhitespace <:+
        (s.dropWhile jsWhitespace).reverse := ⟨pre, hpre⟩
    have h' := List.reverse_prefix.mpr hsfx
    rwa [List.reverse_reverse] at h'
  obtain ⟨t, ht⟩ := hp
  have hh : (s.dropWhile jsWhitespace).head? = some c := by
    rw [← ht, List.head?_append, hc]
    rfl
  exact dropWhile_head_not jsWhitespace s c hh

theorem jsTrim_getLast (s : List Char) (c : Char)
    (hc : (jsTrim s).getLast? = some c) : jsWhitespace c = false := by
  unfold jsTrim at hc
  rw [List.getLast?_reverse] at hc
  exact dropWhile_head_not jsWhitespace _ c hc

theorem jsTrim_length_le (s : List Char) : (jsTrim s).length ≤ s.length := by
  unfold jsTrim
  rw [List.length_reverse]
  refine le_trans (suffix_length_le (List.dropWhile_suffix _)) ?_
  rw [List.length_reverse]
  exact suffix_length_le (List.dropWhile_suffix _)

/-- C10: `cleanResponse` always returns at most 80 characters (the hard
`substring(0, 80)` truncation), containing only the arrow, word
characters and whitespace, with every whitespace character a single
space, no two adjacent whitespace characters (runs collapsed), and no
leading or trailing whitespace. -/
theorem c10_cleanResponse_spec (text : List Char) :
    (IntentRecognizer.cleanResponse text).length ≤ 80 ∧
    (∀ c ∈ IntentRecognizer.cleanResponse text,
      c = '→' ∨ jsWordChar c = true ∨ jsWhitespace c = true) ∧
    (∀ c ∈ IntentRecognizer.cleanResponse text,
      jsWhitespace c = true → c = ' ') ∧
    (IntentRecognizer.cleanResponse text).Chain'
      (fun a b => ¬(jsWhitespace a = true ∧ jsWhitespace b = true)) ∧
    (∀ c, (IntentRecognizer.cleanResponse text).head? = some c →
      jsWhitespace c = false) ∧
    (∀ c, (IntentRecognizer.cleanResponse text).getLast? = some c →
      jsWhitespace c = false) := by
  unfold IntentRecognizer.cleanResponse
  refine ⟨?_, ?_, ?_, ?_, ?_, ?_⟩
  · refine le_trans (jsTrim_length_le _) ?_
    rw [List.length_take]
    exact min_le_left _ _
  · intro c hc
    have h2 : c ∈ stripWsArrow (collapseWs
        (text.filter (fun c => c = '→' || jsWordChar c || jsWhitespace c))) :=
      List.mem_of_mem_take (jsTrim_subset _ c hc)
    rcases stripWsArrow_mem _ c h2 with rfl | h3
    · exact Or.inl rfl
    · rcases collapseWsAux_mem _ false c h3 with rfl | ⟨h4, -⟩
      · exact Or.inr (Or.inr (by decide))
      · have h5 := (List.mem_filter.mp h4).2
        simp only [Bool.or_eq_true, decide_eq_true_eq] at h5
        rcases h5 with (h | h) | h
        · exact Or.inl h
        · exact Or.inr (Or.inl h)
        · exact Or.inr (Or.inr h)
  · intro c hc hw
    have h2 : c ∈ stripWsArrow (collapseWs
        (text.filter (fun c => c = '→' || jsWordChar c || jsWhitespace c))) :=
      List.mem_of_mem_take (jsTrim_subset _ c hc)
    rcases stripWsArrow_mem _ c h2 with rfl | h3
    · exact absurd hw (by decide)
    · rcases collapseWsAux_mem _ false c h3 with rfl | ⟨-, h5⟩
      · rfl
      · rw [h5] at hw
        exact absurd hw Bool.false_ne_true
  · exact jsTrim_chain _
      ((stripWsArrow_chain _ (collapseWsAux_chain _ false)).take 80)
  · intro c hc
    exact jsTrim_head _ c hc
  · intro c hc
    exact jsTrim_getLast _ c hc
